import Mathlib

/-!
Shallow embedding of `chainer/functions/local_response_normalization.py`.

The file models the two windowed-sum engines of the source — the host
shifted-slice accumulation loop of `forward_cpu`/`backward_cpu` and the
device single-pass streaming loop `_cu_conv_sum` — and the LRN operator
built on top of them (`forward_cpu`, `backward_cpu`, `forward_gpu`,
`backward_gpu`).

The channel axis of the source's 4-D tensors is the only axis the windowed
reduction touches; every numpy slice statement and every device lane acts
independently on one `(batch, spatial)` column, so the engines are embedded
as operations on a single channel column `Fin N → α` and the operator lifts
them pointwise over the remaining axes.  Machine floats are modelled by
exact real arithmetic (`ℝ`), and the power primitives (`**` on the host,
`__powf` on the device) by `Real.rpow`.
-/

namespace LRN

section Engine

variable {α : Type*} [AddCommGroup α] {N : ℕ}

/-- One iteration of the host accumulation loop of `forward_cpu`
(lines 44-46):
`sum_part[:, i:] += x2[:, :-i]; sum_part[:, :-i] += x2[:, i:]`,
written pointwise over the channel index: position `c` receives `x2[c-i]`
when `i ≤ c` and `x2[c+i]` when `c + i < N` (shorter shifted slices make the
additions silently drop out at the channel boundaries). -/
def hostStep (x2 : Fin N → α) (s : Fin N → α) (i : ℕ) : Fin N → α := fun c =>
  s c
    + (if i ≤ (c : ℕ) then
        x2 ⟨(c : ℕ) - i, Nat.lt_of_le_of_lt (Nat.sub_le _ _) c.isLt⟩ else 0)
    + (if h : (c : ℕ) + i < N then x2 ⟨(c : ℕ) + i, h⟩ else 0)

/-- The host Windowed-Sum Engine of `forward_cpu`/`backward_cpu`:
`sum_part = x2.copy()` followed by the shifted-slice loop
`for i in xrange(1, half_n + 1)` with `half_n = n / 2` (Python 2 integer
division). -/
def windowedSum (n : ℕ) (v : Fin N → α) : Fin N → α :=
  (List.range (n / 2)).foldl (fun s i0 => hostStep v s (i0 + 1)) v

/-- The clamped symmetric window `[max(0, c-half), min(N-1, c+half)]` of the
spec (truncating `ℕ` subtraction realises the `max 0` clamp, the `Fin N`
carrier the `min (N-1)` clamp). -/
def lrnWindow (half : ℕ) (c : Fin N) : Finset (Fin N) :=
  Finset.univ.filter fun m => (c : ℕ) - half ≤ (m : ℕ) ∧ (m : ℕ) ≤ (c : ℕ) + half

/-- The window actually swept by the device streaming loop `_cu_conv_sum`:
at output channel `c` the running sum holds the input channels `m` with
`c + n/2 - n + 1 ≤ m ≤ c + n/2`, clamped into `[0, N-1]` (the lower bound is
phrased as `c + n/2 + 1 ≤ m + n` to stay in `ℕ`). -/
def devWindow (n : ℕ) (c : Fin N) : Finset (Fin N) :=
  Finset.univ.filter fun m =>
    (c : ℕ) + n / 2 + 1 ≤ (m : ℕ) + n ∧ (m : ℕ) ≤ (c : ℕ) + n / 2

/-- One iteration `j` of the device kernel loop of `_cu_conv_sum`
(lines 17-27): add the leading element while `j < N`, subtract the element
that left the trailing edge once `j ≥ n`, and emit the running sum at output
index `j - n/2` once `j ≥ n/2`.  The kernel guards are exactly `j < N`,
`j ≥ n` and `j ≥ n/2`; the extra bound conjuncts only provide the `Fin`
index proofs and hold throughout the kernel's loop range `j < N + n/2`. -/
def cuStep (n : ℕ) (x : Fin N → α) (st : α × (Fin N → α)) (j : ℕ) :
    α × (Fin N → α) :=
  let s1 : α := if h : j < N then st.1 + x ⟨j, h⟩ else st.1
  let s2 : α := if h : n ≤ j ∧ j - n < N then s1 - x ⟨j - n, h.2⟩ else s1
  let out : Fin N → α :=
    if h : n / 2 ≤ j ∧ j - n / 2 < N then
      Function.update st.2 ⟨j - n / 2, h.2⟩ s2
    else st.2
  (s2, out)

/-- The device Windowed-Sum Engine `_cu_conv_sum`, as computed by one lane
for its column: `sum_part = 0` followed by the streaming loop
`for j = 0 .. N + n/2 - 1`.  The output buffer is uninitialised
(`cuda.empty_like`) in the source; every cell is written exactly once by the
loop, so a zero-initialised buffer is an equivalent model. -/
def cuConvSum (n : ℕ) (x : Fin N → α) : Fin N → α :=
  ((List.range (N + n / 2)).foldl (cuStep n x) (0, fun _ => 0)).2


end Engine

section Operator

/-- A 4-D activation tensor `(batch, channel, height, width)`; the non-channel
axes other than batch are flattened into one spatial index of size `R`
(`rdim` in the source), exactly as the source treats them. -/
abbrev Tensor (B N R : ℕ) := Fin B → Fin N → Fin R → ℝ

/-- The immutable per-instance parameter record set by
`LocalResponseNormalization.__init__`. -/
structure LRNParams where
  n : ℕ
  k : ℝ
  alpha : ℝ
  beta : ℝ

/-- The state cached on the instance by `forward_cpu` (`self.unit_scale`,
`self.scale`, `self.y`) and consumed by `backward_cpu`. -/
structure CacheCPU (B N R : ℕ) where
  unit_scale : Tensor B N R
  scale : Tensor B N R
  y : Tensor B N R

/-- The state cached on the instance by `forward_gpu` (`self.scale`,
`self.y`); on the GPU path `self.scale` holds `k + alpha * sum_part`
(the CPU path's `unit_scale`). -/
structure CacheGPU (B N R : ℕ) where
  scale : Tensor B N R
  y : Tensor B N R

variable {B N R : ℕ}

/-- Embeds `LocalResponseNormalization.forward_cpu`: squares, windowed sum along
channels, `unit_scale = k + alpha * sum_part`, `scale = unit_scale ** -beta`,
`y = x * scale`.  Returns the cached state together with the output `y`. -/
noncomputable def forwardCPU (p : LRNParams) (x : Tensor B N R) :
    CacheCPU B N R × Tensor B N R :=
  let x2 : Tensor B N R := fun b c r => x b c r * x b c r
  let sum_part : Tensor B N R := fun b c r => windowedSum p.n (fun j => x2 b j r) c
  let unit_scale : Tensor B N R := fun b c r => p.k + p.alpha * sum_part b c r
  let scale : Tensor B N R := fun b c r => unit_scale b c r ^ (-p.beta)
  let y : Tensor B N R := fun b c r => x b c r * scale b c r
  (⟨unit_scale, scale, y⟩, y)

/-- Embeds `LocalResponseNormalization.backward_cpu`:
`summand = y * gy / unit_scale`, windowed sum of the summand, and
`gx = gy * scale - 2 * alpha * beta * x * sum_part`. -/
noncomputable def backwardCPU (p : LRNParams) (st : CacheCPU B N R)
    (x gy : Tensor B N R) : Tensor B N R :=
  let summand : Tensor B N R := fun b c r => st.y b c r * gy b c r / st.unit_scale b c r
  let sum_part : Tensor B N R := fun b c r => windowedSum p.n (fun j => summand b j r) c
  fun b c r => gy b c r * st.scale b c r
    - 2 * p.alpha * p.beta * x b c r * sum_part b c r

/-- Embeds `LocalResponseNormalization.forward_gpu`: `self.y = x * x` (temporary),
`_cu_conv_sum(self.scale, self.y, n)`, then the `lrn_fwd` kernel
`scale[i] = k + alpha * scale[i]; y[i] = x[i] * __powf(scale[i], -beta)`. -/
noncomputable def forwardGPU (p : LRNParams) (x : Tensor B N R) :
    CacheGPU B N R × Tensor B N R :=
  let sq : Tensor B N R := fun b c r => x b c r * x b c r
  let conv : Tensor B N R := fun b c r => cuConvSum p.n (fun j => sq b j r) c
  let scale : Tensor B N R := fun b c r => p.k + p.alpha * conv b c r
  let y : Tensor B N R := fun b c r => x b c r * scale b c r ^ (-p.beta)
  (⟨scale, y⟩, y)

/-- Embeds `LocalResponseNormalization.backward_gpu`: the `lrn_bwd_summand` kernel
`summand[i] = y[i] * gy[i] / scale[i]`, then `_cu_conv_sum(gx, summand, n)`,
then the `lrn_bwd` kernel
`gx[i] = __powf(scale[i], -beta) * gy[i] - coeff * x[i] * gx[i]` with
`coeff = 2 * alpha * beta`. -/
noncomputable def backwardGPU (p : LRNParams) (st : CacheGPU B N R)
    (x gy : Tensor B N R) : Tensor B N R :=
  let summand : Tensor B N R := fun b c r => st.y b c r * gy b c r / st.scale b c r
  let conv : Tensor B N R := fun b c r => cuConvSum p.n (fun j => summand b j r) c
  fun b c r => st.scale b c r ^ (-p.beta) * gy b c r
    - 2 * p.alpha * p.beta * (x b c r * conv b c r)

/-- One `LocalResponseNormalization` instance on the CPU path: the immutable
parameters together with the mutable cached attributes (`None` before the
first `forward` call). -/
structure LRNInstance (B N R : ℕ) where
  params : LRNParams
  cache : Option (CacheCPU B N R)

/-- A `forward` call on an instance: runs `forward_cpu` and overwrites the
three cached attributes, returning the updated instance and the output. -/
noncomputable def LRNInstance.forward (inst : LRNInstance B N R)
    (x : Tensor B N R) : LRNInstance B N R × Tensor B N R :=
  (⟨inst.params, some (forwardCPU inst.params x).1⟩, (forwardCPU inst.params x).2)

/-- A `backward` call on an instance: reads the cached attributes (failing,
as `backward_cpu` would with an `AttributeError`, when no forward has run)
and assigns no instance attribute, so the instance comes back unchanged. -/
noncomputable def LRNInstance.backward (inst : LRNInstance B N R)
    (x gy : Tensor B N R) : LRNInstance B N R × Option (Tensor B N R) :=
  match inst.cache with
  | none => (inst, none)
  | some st => (inst, some (backwardCPU inst.params st x gy))

/-- The action of `forward_cpu` on a single `(batch, spatial)` column; the
source computes each output column from the matching input column alone. -/
noncomputable def forwardCol (p : LRNParams) (v : Fin N → ℝ) : Fin N → ℝ :=
  fun c => v c * (p.k + p.alpha * windowedSum p.n (fun m => v m * v m) c) ^ (-p.beta)

/-- The action of `backward_cpu` on one column, with the cache produced by a
matching `forward_cpu` on the same input substituted in. -/
noncomputable def backwardCol (p : LRNParams) (v g : Fin N → ℝ) : Fin N → ℝ :=
  fun c => g c * (p.k + p.alpha * windowedSum p.n (fun m => v m * v m) c) ^ (-p.beta)
    - 2 * p.alpha * p.beta * v c
      * windowedSum p.n
          (fun m => forwardCol p v m * g m
            / (p.k + p.alpha * windowedSum p.n (fun m2 => v m2 * v m2) m)) c

/-- Pointwise update of one tensor coordinate; used to phrase the partial
derivatives of the forward map. -/
def updateAt (x : Tensor B N R) (b' : Fin B) (j : Fin N) (r' : Fin R) (t : ℝ) :
    Tensor B N R :=
  fun b c r => if b = b' ∧ c = j ∧ r = r' then t else x b c r

/-- Concrete parameters (the source defaults with unit coefficients) used to
instantiate theorems on explicit inputs. -/
def pW : LRNParams := ⟨5, 2, 1, 1⟩

/-- Concrete even-width parameters (with `beta = -1`, so that the power is
the identity) used to instantiate theorems on explicit inputs. -/
def pE : LRNParams := ⟨2, 1, 1, -1⟩

/-- A concrete all-ones activation tensor with three channels. -/
def xW : Tensor 1 3 1 := fun _ _ _ => 1

/-- A concrete all-ones output-gradient tensor with three channels. -/
def gyW : Tensor 1 3 1 := fun _ _ _ => 1

/-- A concrete all-ones activation tensor with two channels. -/
def xE : Tensor 1 2 1 := fun _ _ _ => 1

lemma forwardCPU_col (p : LRNParams) (x : Tensor B N R) (b : Fin B) (c : Fin N)
    (r : Fin R) : (forwardCPU p x).2 b c r = forwardCol p (fun m => x b m r) c := rfl

lemma backwardCPU_col (p : LRNParams) (x gy : Tensor B N R) (b : Fin B)
    (c : Fin N) (r : Fin R) :
    backwardCPU p (forwardCPU p x).1 x gy b c r
      = backwardCol p (fun m => x b m r) (fun m => gy b m r) c := rfl

end Operator

section EngineLemmas

variable {α : Type*} [AddCommGroup α] {N : ℕ}

lemma sum_ite_val_eq (x : Fin N → α) (t : ℕ) :
    (∑ m : Fin N, if (m : ℕ) = t then x m else 0)
      = if h : t < N then x ⟨t, h⟩ else 0 := by
  by_cases h : t < N
  · rw [dif_pos h]
    have h2 : (∑ m : Fin N, if m = (⟨t, h⟩ : Fin N) then x m else 0) = x ⟨t, h⟩ := by
      rw [Finset.sum_ite_eq' Finset.univ (⟨t, h⟩ : Fin N) x]
      simp
    rw [← h2]
    refine Finset.sum_congr rfl fun m _ => ?_
    exact if_congr (by simp [Fin.ext_iff]) rfl rfl
  · rw [dif_neg h]
    refine Finset.sum_eq_zero fun m _ => if_neg fun hm => h ?_
    have := m.isLt
    omega

lemma sum_ite_val_add_eq (x : Fin N → α) (j t : ℕ) :
    (∑ m : Fin N, if (m : ℕ) + j = t then x m else 0)
      = if h : j ≤ t ∧ t - j < N then x ⟨t - j, h.2⟩ else 0 := by
  by_cases hj : j ≤ t
  · have h1 : (∑ m : Fin N, if (m : ℕ) + j = t then x m else 0)
        = ∑ m : Fin N, if (m : ℕ) = t - j then x m else 0 := by
      refine Finset.sum_congr rfl fun m _ => ?_
      exact if_congr (by omega) rfl rfl
    rw [h1, sum_ite_val_eq]
    by_cases h2 : t - j < N
    · rw [dif_pos h2, dif_pos ⟨hj, h2⟩]
    · rw [dif_neg h2, dif_neg (by tauto)]
  · rw [dif_neg (by tauto)]
    refine Finset.sum_eq_zero fun m _ => ?_
    exact if_neg (by omega)

lemma lrnWindow_zero (c : Fin N) : lrnWindow 0 c = {c} := by
  ext m
  simp only [lrnWindow, Finset.mem_filter, Finset.mem_univ, true_and,
    Finset.mem_singleton, Nat.sub_zero, Nat.add_zero]
  constructor
  · rintro ⟨h1, h2⟩
    exact Fin.ext (le_antisymm h2 h1)
  · rintro rfl
    exact ⟨le_refl _, le_refl _⟩

lemma lrnWindow_sum_succ (v : Fin N → α) (c : Fin N) (h : ℕ) :
    (∑ m ∈ lrnWindow (h + 1) c, v m)
      = ((∑ m ∈ lrnWindow h c, v m)
          + (if h + 1 ≤ (c : ℕ) then
              v ⟨(c : ℕ) - (h + 1), Nat.lt_of_le_of_lt (Nat.sub_le _ _) c.isLt⟩
            else 0))
        + (if hh : (c : ℕ) + (h + 1) < N then v ⟨(c : ℕ) + (h + 1), hh⟩ else 0) := by
  have e1 : (∑ m : Fin N, if (m : ℕ) + (h + 1) = (c : ℕ) then v m else 0)
      = (if h + 1 ≤ (c : ℕ) then
          v ⟨(c : ℕ) - (h + 1), Nat.lt_of_le_of_lt (Nat.sub_le _ _) c.isLt⟩
        else 0) := by
    rw [sum_ite_val_add_eq]
    by_cases h1 : h + 1 ≤ (c : ℕ)
    · rw [dif_pos ⟨h1, Nat.lt_of_le_of_lt (Nat.sub_le _ _) c.isLt⟩, if_pos h1]
    · rw [dif_neg fun hcon => h1 hcon.1, if_neg h1]
  rw [lrnWindow, lrnWindow, Finset.sum_filter, Finset.sum_filter, ← e1,
    ← sum_ite_val_eq v ((c : ℕ) + (h + 1)), ← Finset.sum_add_distrib,
    ← Finset.sum_add_distrib]
  refine Finset.sum_congr rfl fun m _ => ?_
  have hm := m.isLt
  have hc := c.isLt
  split_ifs <;> first | (exfalso; omega) | abel

lemma windowedSum_eq_aux (v : Fin N → α) (h : ℕ) :
    (List.range h).foldl (fun s i0 => hostStep v s (i0 + 1)) v
      = fun c => ∑ m ∈ lrnWindow h c, v m := by
  induction h with
  | zero =>
    funext c
    simp [lrnWindow_zero]
  | succ h ih =>
    rw [List.range_succ, List.foldl_append, List.foldl_cons, List.foldl_nil, ih]
    funext c
    rw [lrnWindow_sum_succ v c h]
    rfl

/-- The host Windowed-Sum Engine computes, at every channel `c`, exactly the
sum over the clamped symmetric window of half-width `n / 2`. -/
theorem windowedSum_eq (n : ℕ) (v : Fin N → α) (c : Fin N) :
    windowedSum n v c = ∑ m ∈ lrnWindow (n / 2) c, v m := by
  rw [windowedSum, windowedSum_eq_aux v (n / 2)]

lemma cuFold_spec (n : ℕ) (x : Fin N → α) (t : ℕ) (ht : t ≤ N + n / 2) :
    (((List.range t).foldl (cuStep n x) (0, fun _ => 0)).1
        = ∑ m : Fin N, if (m : ℕ) < t ∧ t ≤ (m : ℕ) + n then x m else 0)
    ∧ ∀ c : Fin N, (c : ℕ) + n / 2 < t →
        ((List.range t).foldl (cuStep n x) (0, fun _ => 0)).2 c
          = ∑ m ∈ devWindow n c, x m := by
  induction t with
  | zero =>
    constructor
    · simp
    · intro c hc
      exact absurd hc (by omega)
  | succ t ih =>
    obtain ⟨hsum, hout⟩ := ih (by omega)
    have hF : (List.range (t + 1)).foldl (cuStep n x) ((0 : α), fun _ => 0)
        = cuStep n x ((List.range t).foldl (cuStep n x) (0, fun _ => 0)) t := by
      rw [List.range_succ, List.foldl_append, List.foldl_cons, List.foldl_nil]
    have hstep : (∑ m : Fin N, if (m : ℕ) < t + 1 ∧ t + 1 ≤ (m : ℕ) + n then x m else 0)
        = (∑ m : Fin N, if (m : ℕ) < t ∧ t ≤ (m : ℕ) + n then x m else 0)
            + (if h : t < N then x ⟨t, h⟩ else 0)
            - (if h : n ≤ t ∧ t - n < N then x ⟨t - n, h.2⟩ else 0) := by
      rw [← sum_ite_val_eq x t, ← sum_ite_val_add_eq x n t,
        ← Finset.sum_add_distrib, ← Finset.sum_sub_distrib]
      refine Finset.sum_congr rfl fun m _ => ?_
      have hm := m.isLt
      split_ifs <;> first | (exfalso; omega) | abel
    have hF1 : ((List.range (t + 1)).foldl (cuStep n x) ((0 : α), fun _ => 0)).1
        = ∑ m : Fin N, if (m : ℕ) < t + 1 ∧ t + 1 ≤ (m : ℕ) + n then x m else 0 := by
      rw [hF, hstep, ← hsum]
      simp only [cuStep]
      split_ifs <;> abel
    have hF2 : ((List.range (t + 1)).foldl (cuStep n x) ((0 : α), fun _ => 0)).2
        = (if h : n / 2 ≤ t ∧ t - n / 2 < N then
            Function.update
              (((List.range t).foldl (cuStep n x) ((0 : α), fun _ => 0)).2)
              ⟨t - n / 2, h.2⟩
              (((List.range (t + 1)).foldl (cuStep n x) ((0 : α), fun _ => 0)).1)
          else ((List.range t).foldl (cuStep n x) ((0 : α), fun _ => 0)).2) := by
      rw [hF]
      rfl
    refine ⟨hF1, ?_⟩
    intro c hc
    have hcN := c.isLt
    have hwt : n / 2 ≤ t ∧ t - n / 2 < N := ⟨by omega, by omega⟩
    rw [hF2, dif_pos hwt]
    by_cases hct : (c : ℕ) + n / 2 < t
    · rw [Function.update_noteq
        (Fin.ne_of_val_ne (show (c : ℕ) ≠ t - n / 2 by omega))]
      exact hout c hct
    · have hceq : (⟨t - n / 2, hwt.2⟩ : Fin N) = c :=
        Fin.ext (show t - n / 2 = (c : ℕ) by omega)
      rw [hceq, Function.update_same, hF1, devWindow, Finset.sum_filter]
      refine Finset.sum_congr rfl fun m _ => ?_
      exact if_congr (by omega) rfl rfl

/-- The device Windowed-Sum Engine computes, at every channel `c`, exactly
the sum over the (possibly asymmetric) device window. -/
theorem cuConvSum_eq (n : ℕ) (x : Fin N → α) (c : Fin N) :
    cuConvSum n x c = ∑ m ∈ devWindow n c, x m := by
  rw [cuConvSum]
  exact (cuFold_spec n x (N + n / 2) le_rfl).2 c (by have := c.isLt; omega)

/-- For odd widths the device window coincides with the symmetric host
window. -/
lemma devWindow_eq_lrnWindow {n : ℕ} (hn : Odd n) (c : Fin N) :
    devWindow n c = lrnWindow (n / 2) c := by
  obtain ⟨h, rfl⟩ := hn
  ext m
  simp only [devWindow, lrnWindow, Finset.mem_filter, Finset.mem_univ, true_and]
  omega

end EngineLemmas

section WindowCards

lemma card_lrnWindow {N : ℕ} (half : ℕ) (c : Fin N) (hlo : half ≤ (c : ℕ))
    (hhi : (c : ℕ) + half < N) : (lrnWindow half c).card = 2 * half + 1 := by
  have himg : (lrnWindow half c).image Fin.val
      = Finset.Icc ((c : ℕ) - half) ((c : ℕ) + half) := by
    ext m
    simp only [lrnWindow, Finset.mem_image, Finset.mem_filter, Finset.mem_univ,
      true_and, Finset.mem_Icc]
    constructor
    · rintro ⟨j, ⟨hj1, hj2⟩, rfl⟩
      exact ⟨hj1, hj2⟩
    · intro hm
      exact ⟨⟨m, by omega⟩, ⟨show (c : ℕ) - half ≤ m from hm.1,
        show m ≤ (c : ℕ) + half from hm.2⟩, rfl⟩
  rw [← Finset.card_image_of_injective _ Fin.val_injective, himg, Nat.card_Icc]
  omega

lemma card_devWindow {N : ℕ} (n : ℕ) (hn : 1 ≤ n) (c : Fin N)
    (hlo : n / 2 ≤ (c : ℕ)) (hhi : (c : ℕ) + n / 2 < N) :
    (devWindow n c).card = n := by
  have himg : (devWindow n c).image Fin.val
      = Finset.Icc ((c : ℕ) + n / 2 + 1 - n) ((c : ℕ) + n / 2) := by
    ext m
    simp only [devWindow, Finset.mem_image, Finset.mem_filter, Finset.mem_univ,
      true_and, Finset.mem_Icc]
    constructor
    · rintro ⟨j, ⟨hj1, hj2⟩, rfl⟩
      exact ⟨by omega, hj2⟩
    · intro hm
      exact ⟨⟨m, by omega⟩, ⟨show (c : ℕ) + n / 2 + 1 ≤ m + n by omega,
        show m ≤ (c : ℕ) + n / 2 from hm.2⟩, rfl⟩
  rw [← Finset.card_image_of_injective _ Fin.val_injective, himg, Nat.card_Icc]
  omega

end WindowCards

section Gradient

variable {N : ℕ}

lemma lrnWindow_symm (half : ℕ) (i j : Fin N) :
    j ∈ lrnWindow half i ↔ i ∈ lrnWindow half j := by
  simp only [lrnWindow, Finset.mem_filter, Finset.mem_univ, true_and]
  omega

lemma unitScaleCol_pos (p : LRNParams) (hk : 0 < p.k) (ha : 0 ≤ p.alpha)
    (v : Fin N → ℝ) (i : Fin N) :
    0 < p.k + p.alpha * windowedSum p.n (fun m => v m * v m) i := by
  have hS : (0 : ℝ) ≤ windowedSum p.n (fun m => v m * v m) i := by
    rw [windowedSum_eq]
    exact Finset.sum_nonneg fun m _ => mul_self_nonneg _
  have := mul_nonneg ha hS
  linarith

lemma hasDerivAt_forwardCol (p : LRNParams) (hk : 0 < p.k) (ha : 0 ≤ p.alpha)
    (v : Fin N → ℝ) (j i : Fin N) :
    HasDerivAt (fun t => forwardCol p (Function.update v j t) i)
      ((if i = j then
          (p.k + p.alpha * ∑ m ∈ lrnWindow (p.n / 2) i, (v m * v m)) ^ (-p.beta)
        else 0)
        + v i * (p.alpha * (if j ∈ lrnWindow (p.n / 2) i then 2 * v j else 0)
            * -p.beta
            * (p.k + p.alpha * ∑ m ∈ lrnWindow (p.n / 2) i, (v m * v m))
                ^ (-p.beta - 1)))
      (v j) := by
  have hsum : HasDerivAt
      (fun t => ∑ m ∈ lrnWindow (p.n / 2) i,
        (Function.update v j t m * Function.update v j t m))
      (∑ m ∈ lrnWindow (p.n / 2) i, (if m = j then 2 * v j else 0)) (v j) := by
    refine HasDerivAt.sum fun m _ => ?_
    by_cases hmj : m = j
    · subst hmj
      have hfn : (fun t => Function.update v m t m * Function.update v m t m)
          = fun t => t * t := by
        funext t
        rw [Function.update_same]
      rw [hfn, if_pos rfl]
      have h1 := (hasDerivAt_id (v m)).mul (hasDerivAt_id (v m))
      simp only [id] at h1
      convert h1 using 1
      ring
    · have hfn : (fun t => Function.update v j t m * Function.update v j t m)
          = fun _ => v m * v m := by
        funext t
        rw [Function.update_noteq hmj]
      rw [hfn, if_neg hmj]
      exact hasDerivAt_const _ _
  have hU : HasDerivAt
      (fun t => p.k + p.alpha * ∑ m ∈ lrnWindow (p.n / 2) i,
        (Function.update v j t m * Function.update v j t m))
      (p.alpha * (if j ∈ lrnWindow (p.n / 2) i then 2 * v j else 0)) (v j) := by
    have := (hsum.const_mul p.alpha).const_add p.k
    rwa [Finset.sum_ite_eq' (lrnWindow (p.n / 2) i) j (fun _ => 2 * v j)] at this
  have h0 : (p.k + p.alpha * ∑ m ∈ lrnWindow (p.n / 2) i,
        (Function.update v j (v j) m * Function.update v j (v j) m)) ≠ 0 := by
    rw [Function.update_eq_self, ← windowedSum_eq]
    exact ne_of_gt (unitScaleCol_pos p hk ha v i)
  have hpow : HasDerivAt
      (fun t => (p.k + p.alpha * ∑ m ∈ lrnWindow (p.n / 2) i,
        (Function.update v j t m * Function.update v j t m)) ^ (-p.beta))
      ((p.alpha * (if j ∈ lrnWindow (p.n / 2) i then 2 * v j else 0)) * -p.beta
        * (p.k + p.alpha * ∑ m ∈ lrnWindow (p.n / 2) i,
            (Function.update v j (v j) m * Function.update v j (v j) m))
            ^ (-p.beta - 1))
      (v j) := hU.rpow_const (Or.inl h0)
  have hfactor : HasDerivAt (fun t => Function.update v j t i)
      (if i = j then 1 else 0) (v j) := by
    by_cases hij : i = j
    · subst hij
      have hfn : (fun t => Function.update v i t i) = fun t => t := by
        funext t
        rw [Function.update_same]
      rw [hfn, if_pos rfl]
      exact hasDerivAt_id (v i)
    · have hfn : (fun t => Function.update v j t i) = fun _ => v i := by
        funext t
        rw [Function.update_noteq hij]
      rw [hfn, if_neg hij]
      exact hasDerivAt_const _ _
  have hd := hfactor.mul hpow
  have hfn2 : (fun t => forwardCol p (Function.update v j t) i)
      = fun t => Function.update v j t i
          * (p.k + p.alpha * ∑ m ∈ lrnWindow (p.n / 2) i,
              (Function.update v j t m * Function.update v j t m)) ^ (-p.beta) := by
    funext t
    simp only [forwardCol, windowedSum_eq]
  rw [hfn2]
  convert hd using 1
  simp only [Function.update_eq_self]
  rw [ite_mul, one_mul, zero_mul]

lemma grad_col (p : LRNParams) (hk : 0 < p.k) (ha : 0 ≤ p.alpha)
    (v g : Fin N → ℝ) (j : Fin N) :
    backwardCol p v g j
      = ∑ i : Fin N,
          g i * deriv (fun t => forwardCol p (Function.update v j t) i) (v j) := by
  have hD : ∀ i : Fin N,
      deriv (fun t => forwardCol p (Function.update v j t) i) (v j)
        = (if i = j then
            (p.k + p.alpha * ∑ m ∈ lrnWindow (p.n / 2) i, (v m * v m)) ^ (-p.beta)
          else 0)
          + v i * (p.alpha * (if j ∈ lrnWindow (p.n / 2) i then 2 * v j else 0)
              * -p.beta
              * (p.k + p.alpha * ∑ m ∈ lrnWindow (p.n / 2) i, (v m * v m))
                  ^ (-p.beta - 1)) :=
    fun i => (hasDerivAt_forwardCol p hk ha v j i).deriv
  have hsplit : (∑ i : Fin N,
      g i * deriv (fun t => forwardCol p (Function.update v j t) i) (v j))
      = (∑ i : Fin N, if i = j then
          g i * (p.k + p.alpha * ∑ m ∈ lrnWindow (p.n / 2) i, (v m * v m)) ^ (-p.beta)
        else 0)
        + ∑ i : Fin N, (if j ∈ lrnWindow (p.n / 2) i then
            -(2 * p.alpha * p.beta * v j)
              * (g i * v i
                * (p.k + p.alpha * ∑ m ∈ lrnWindow (p.n / 2) i, (v m * v m))
                    ^ (-p.beta - 1))
          else 0) := by
    rw [← Finset.sum_add_distrib]
    refine Finset.sum_congr rfl fun i _ => ?_
    rw [hD i]
    split_ifs <;> ring
  have hfirst : (∑ i : Fin N, if i = j then
      g i * (p.k + p.alpha * ∑ m ∈ lrnWindow (p.n / 2) i, (v m * v m)) ^ (-p.beta)
    else 0)
      = g j * (p.k + p.alpha * ∑ m ∈ lrnWindow (p.n / 2) j, (v m * v m)) ^ (-p.beta) := by
    rw [Finset.sum_ite_eq' Finset.univ j
      (fun i => g i * (p.k + p.alpha * ∑ m ∈ lrnWindow (p.n / 2) i, (v m * v m)) ^ (-p.beta))]
    simp
  have hsecond : (∑ i : Fin N, (if j ∈ lrnWindow (p.n / 2) i then
      -(2 * p.alpha * p.beta * v j)
        * (g i * v i
          * (p.k + p.alpha * ∑ m ∈ lrnWindow (p.n / 2) i, (v m * v m)) ^ (-p.beta - 1))
    else 0))
      = -(2 * p.alpha * p.beta * v j)
        * ∑ i ∈ lrnWindow (p.n / 2) j,
            g i * v i
              * (p.k + p.alpha * ∑ m ∈ lrnWindow (p.n / 2) i, (v m * v m))
                  ^ (-p.beta - 1) := by
    rw [Finset.sum_congr rfl fun i _ =>
      if_congr (lrnWindow_symm (p.n / 2) i j) rfl rfl]
    rw [Finset.sum_ite_mem, Finset.univ_inter, Finset.mul_sum]
  have hsummand : ∀ i : Fin N,
      forwardCol p v i * g i
          / (p.k + p.alpha * windowedSum p.n (fun m2 => v m2 * v m2) i)
        = g i * v i
            * (p.k + p.alpha * ∑ m ∈ lrnWindow (p.n / 2) i, (v m * v m))
                ^ (-p.beta - 1) := by
    intro i
    have hpos := unitScaleCol_pos p hk ha v i
    have hpos2 : (0 : ℝ) < p.k + p.alpha * ∑ m ∈ lrnWindow (p.n / 2) i, (v m * v m) := by
      rw [← windowedSum_eq]
      exact hpos
    simp only [forwardCol, windowedSum_eq]
    rw [show (-p.beta - 1 : ℝ) = -p.beta + -1 by ring, Real.rpow_add hpos2,
      Real.rpow_neg_one, div_eq_mul_inv]
    ring
  rw [hsplit, hfirst, hsecond]
  simp only [backwardCol]
  rw [windowedSum_eq p.n
    (fun m => forwardCol p v m * g m
      / (p.k + p.alpha * windowedSum p.n (fun m2 => v m2 * v m2) m)) j]
  rw [Finset.sum_congr rfl fun i _ => hsummand i]
  rw [windowedSum_eq]
  ring

end Gradient

section Claims

variable {B N R : ℕ}

/-- Claim C2: for every channel column `v` and width `n ≥ 1`, the host
Windowed-Sum Engine (the shifted-slice accumulation loop) produces at each
channel `c` exactly `∑ v j` over `j ∈ [max(0, c - half), min(N-1, c + half)]`
with `half = n / 2`, truncating at the boundaries. -/
theorem claim_C2 {α : Type*} [AddCommGroup α] (n : ℕ) (hn : 1 ≤ n)
    (v : Fin N → α) (c : Fin N) :
    windowedSum n v c = ∑ m ∈ lrnWindow (n / 2) c, v m :=
  windowedSum_eq n v c

/-- Witness for C2 at the spec's boundary example `N = 4`, `n = 5`. -/
theorem claim_C2_witness :
    (1 ≤ 5) ∧ windowedSum 5 ![(1 : ℤ), 2, 4, 8] 0
      = ∑ m ∈ lrnWindow (5 / 2) (0 : Fin 4), ![(1 : ℤ), 2, 4, 8] m :=
  ⟨by norm_num, claim_C2 5 (by norm_num) ![(1 : ℤ), 2, 4, 8] 0⟩

/-- Claim C4: for every odd width `n` and every input tensor, the device
single-pass streaming windowed sum agrees, in exact arithmetic, with the
host two-sided shifted-slice accumulation at every element. -/
theorem claim_C4 (n : ℕ) (hn : Odd n) (x : Tensor B N R) (b : Fin B)
    (c : Fin N) (r : Fin R) :
    cuConvSum n (fun j => x b j r) c = windowedSum n (fun j => x b j r) c := by
  rw [cuConvSum_eq, windowedSum_eq, devWindow_eq_lrnWindow hn]

/-- Witness for C4 at `n = 3` on a concrete three-channel tensor. -/
theorem claim_C4_witness :
    cuConvSum 3 (fun j => xW 0 j 0) 0 = windowedSum 3 (fun j => xW 0 j 0) 0 :=
  claim_C4 3 ⟨1, by norm_num⟩ xW 0 0 0

/-- Claim C6 counterexample: for the even width `n = 2` the device path does
not sum the symmetric window: at `N = 2`, `v = [1, 0]`, channel 1 the device
engine yields `0` while the symmetric window `{0, 1}` sums to `1`. -/
theorem claim_C6_counterexample :
    cuConvSum 2 ![(1 : ℤ), 0] 1 ≠ ∑ m ∈ lrnWindow (2 / 2) (1 : Fin 2), ![(1 : ℤ), 0] m := by
  decide

/-- Claim C6 amended: for every even width `n` the host engine's window is the
symmetric `[max(0, c - n/2), min(N-1, c + n/2)]`, but the device engine's
window is `[max(0, c - n/2 + 1), min(N-1, c + n/2)]`, one channel shorter on
the low side (the low bound is phrased as `c + 1 ≤ m + n/2` in `ℕ`). -/
theorem claim_C6_amended {α : Type*} [AddCommGroup α] (n : ℕ) (hn : Even n)
    (v : Fin N → α) (c : Fin N) :
    windowedSum n v c = ∑ m ∈ lrnWindow (n / 2) c, v m
      ∧ cuConvSum n v c
        = ∑ m ∈ Finset.univ.filter
            (fun m : Fin N => (c : ℕ) + 1 ≤ (m : ℕ) + n / 2 ∧ (m : ℕ) ≤ (c : ℕ) + n / 2),
            v m := by
  refine ⟨windowedSum_eq n v c, ?_⟩
  rw [cuConvSum_eq, devWindow]
  refine Finset.sum_congr ?_ fun m _ => rfl
  ext m
  simp only [Finset.mem_filter, Finset.mem_univ, true_and]
  obtain ⟨h, rfl⟩ := hn
  omega

/-- Witness for the amended C6 at `n = 2`, `N = 2`, `v = [1, 0]`. -/
theorem claim_C6_witness :
    windowedSum 2 ![(1 : ℤ), 0] 1 = ∑ m ∈ lrnWindow (2 / 2) (1 : Fin 2), ![(1 : ℤ), 0] m
      ∧ cuConvSum 2 ![(1 : ℤ), 0] 1
        = ∑ m ∈ Finset.univ.filter
            (fun m : Fin 2 => ((1 : Fin 2) : ℕ) + 1 ≤ (m : ℕ) + 2 / 2
              ∧ (m : ℕ) ≤ ((1 : Fin 2) : ℕ) + 2 / 2),
            ![(1 : ℤ), 0] m :=
  claim_C6_amended 2 ⟨1, rfl⟩ ![(1 : ℤ), 0] 1

/-- Claim C7 counterexample: for the even width `n = 2` with no boundary clamp
(`N = 3`, `c = 1`) the host path does not cover `n` channels: on the
all-ones vector it sums three channels (value `3`), while the device path
sums two (value `2`), so the two paths do not share an `n`-channel
window. -/
theorem claim_C7_counterexample :
    windowedSum 2 ![(1 : ℤ), 1, 1] 1 = 3 ∧ cuConvSum 2 ![(1 : ℤ), 1, 1] 1 = 2 := by
  decide

/-- Claim C7 amended: for even `n ≥ 2` and no boundary clamp, the device
windowed sum covers exactly the `n` channels `c - n/2 + 1 .. c + n/2`
(one more above `c` than below), while the host covers the `n + 1` channels
`c - n/2 .. c + n/2` symmetrically. -/
theorem claim_C7_amended {α : Type*} [AddCommGroup α] (n : ℕ) (hev : Even n)
    (h2 : 2 ≤ n) (v : Fin N → α) (c : Fin N) (hlo : n / 2 ≤ (c : ℕ))
    (hhi : (c : ℕ) + n / 2 < N) :
    (cuConvSum n v c = ∑ m ∈ devWindow n c, v m ∧ (devWindow n c).card = n)
      ∧ windowedSum n v c = ∑ m ∈ lrnWindow (n / 2) c, v m
        ∧ (lrnWindow (n / 2) c).card = n + 1 := by
  refine ⟨⟨cuConvSum_eq n v c, card_devWindow n (by omega) c hlo hhi⟩,
    windowedSum_eq n v c, ?_⟩
  rw [card_lrnWindow (n / 2) c hlo hhi]
  obtain ⟨h, rfl⟩ := hev
  omega

/-- Witness for the amended C7 at `n = 2`, `N = 3`, `c = 1`. -/
theorem claim_C7_witness :
    (cuConvSum 2 ![(5 : ℤ), 7, 9] 1 = ∑ m ∈ devWindow 2 (1 : Fin 3), ![(5 : ℤ), 7, 9] m
        ∧ (devWindow 2 (1 : Fin 3)).card = 2)
      ∧ windowedSum 2 ![(5 : ℤ), 7, 9] 1
          = ∑ m ∈ lrnWindow (2 / 2) (1 : Fin 3), ![(5 : ℤ), 7, 9] m
        ∧ (lrnWindow (2 / 2) (1 : Fin 3)).card = 2 + 1 :=
  claim_C7_amended 2 ⟨1, rfl⟩ (by norm_num) ![(5 : ℤ), 7, 9] 1 (by decide) (by decide)

/-- Claim C8: a second `forward` on the same instance completely overwrites the
cached state, so a subsequent `backward` returns exactly what a fresh
instance that ran only the second forward would return. -/
theorem claim_C8 (p : LRNParams) (x1 x2 xb gy : Tensor B N R) :
    ((((⟨p, none⟩ : LRNInstance B N R).forward x1).1.forward x2).1.backward xb gy)
      = (((⟨p, none⟩ : LRNInstance B N R).forward x2).1.backward xb gy) := rfl

/-- Claim C9: with `k > 0` and `alpha ≥ 0` the normalizer
`k + alpha * windowed-sum-of-squares` is strictly positive at every element,
on the CPU path (`unit_scale`) and on the GPU path (`scale`). -/
theorem claim_C9 (p : LRNParams) (hk : 0 < p.k) (ha : 0 ≤ p.alpha)
    (x : Tensor B N R) (b : Fin B) (c : Fin N) (r : Fin R) :
    0 < (forwardCPU p x).1.unit_scale b c r
      ∧ 0 < (forwardGPU p x).1.scale b c r := by
  constructor
  · show 0 < p.k + p.alpha * windowedSum p.n (fun j => x b j r * x b j r) c
    have hS : (0 : ℝ) ≤ windowedSum p.n (fun j => x b j r * x b j r) c := by
      rw [windowedSum_eq]
      exact Finset.sum_nonneg fun m _ => mul_self_nonneg _
    have := mul_nonneg ha hS
    linarith
  · show 0 < p.k + p.alpha * cuConvSum p.n (fun j => x b j r * x b j r) c
    have hS : (0 : ℝ) ≤ cuConvSum p.n (fun j => x b j r * x b j r) c := by
      rw [cuConvSum_eq]
      exact Finset.sum_nonneg fun m _ => mul_self_nonneg _
    have := mul_nonneg ha hS
    linarith

/-- Witness for C9 on concrete parameters and input. -/
theorem claim_C9_witness :
    0 < (forwardCPU pW xW).1.unit_scale 0 0 0
      ∧ 0 < (forwardGPU pW xW).1.scale 0 0 0 :=
  claim_C9 pW (by norm_num [pW]) (by norm_num [pW]) xW 0 0 0

/-- Claim C10: `backward` assigns no instance attribute, so it leaves the
instance (hence the cached `y`/`unit_scale`/`scale`) unchanged, and two
consecutive `backward` calls with the same arguments after one `forward`
return equal results.  The embedding is pure, so the input tensors `x` and
`gy` cannot be mutated; the numpy in-place updates of the source only touch
locally `copy()`-ed buffers. -/
theorem claim_C10 (p : LRNParams) (x0 x gy : Tensor B N R) :
    ((((⟨p, none⟩ : LRNInstance B N R).forward x0).1.backward x gy).1
        = ((⟨p, none⟩ : LRNInstance B N R).forward x0).1)
      ∧ (((((⟨p, none⟩ : LRNInstance B N R).forward x0).1.backward x gy).1.backward x gy).2
          = (((⟨p, none⟩ : LRNInstance B N R).forward x0).1.backward x gy).2) :=
  ⟨rfl, rfl⟩

/-- Claim C1 counterexample: on the GPU path with the even width `n = 2`
(parameters `k = 1`, `alpha = 1`, `beta = -1`, all-ones input with two
channels), the forward output at channel 1 is `2`, not the value `3`
demanded by the symmetric-window formula of the claim. -/
theorem claim_C1_counterexample :
    ¬ ((forwardGPU pE xE).2 0 1 0
        = xE 0 1 0
          * (pE.k + pE.alpha * ∑ m ∈ lrnWindow (pE.n / 2) (1 : Fin 2), xE 0 m 0 ^ 2)
              ^ (-pE.beta)) := by
  have hwin2 : devWindow pE.n (1 : Fin 2) = {1} := by decide
  have hwin1 : lrnWindow (pE.n / 2) (1 : Fin 2) = {0, 1} := by decide
  have hL : (forwardGPU pE xE).2 0 1 0 = 2 := by
    show xE 0 1 0 * (pE.k + pE.alpha * cuConvSum pE.n (fun j => xE 0 j 0 * xE 0 j 0) 1)
        ^ (-pE.beta) = 2
    rw [cuConvSum_eq, hwin2]
    simp only [xE, pE, Finset.sum_singleton]
    norm_num [Real.rpow_one]
  have hR : xE 0 1 0
      * (pE.k + pE.alpha * ∑ m ∈ lrnWindow (pE.n / 2) (1 : Fin 2), xE 0 m 0 ^ 2)
          ^ (-pE.beta) = 3 := by
    rw [hwin1]
    rw [Finset.sum_pair (by decide : (0 : Fin 2) ≠ 1)]
    simp only [xE, pE]
    norm_num [Real.rpow_one]
  intro hcl
  rw [hL, hR] at hcl
  norm_num at hcl

/-- Claim C1 amended: for every input tensor and `n ≥ 1`, the CPU forward
returns `y_i = x_i * (k + alpha * S_i)^(-beta)` with `S_i` the sum of
squares over the symmetric clamped window; the GPU forward satisfies the
same formula with `S_i` taken over the device window, which coincides with
the symmetric window exactly when `n` is odd. -/
theorem claim_C1_amended (p : LRNParams) (hn : 1 ≤ p.n) (x : Tensor B N R) :
    (∀ (b : Fin B) (c : Fin N) (r : Fin R), (forwardCPU p x).2 b c r
        = x b c r * (p.k + p.alpha * ∑ m ∈ lrnWindow (p.n / 2) c, x b m r ^ 2)
            ^ (-p.beta))
      ∧ (∀ (b : Fin B) (c : Fin N) (r : Fin R), (forwardGPU p x).2 b c r
          = x b c r * (p.k + p.alpha * ∑ m ∈ devWindow p.n c, x b m r ^ 2)
              ^ (-p.beta))
      ∧ (Odd p.n → ∀ (b : Fin B) (c : Fin N) (r : Fin R), (forwardGPU p x).2 b c r
          = x b c r * (p.k + p.alpha * ∑ m ∈ lrnWindow (p.n / 2) c, x b m r ^ 2)
              ^ (-p.beta)) := by
  have hgpu : ∀ (b : Fin B) (c : Fin N) (r : Fin R), (forwardGPU p x).2 b c r
      = x b c r * (p.k + p.alpha * ∑ m ∈ devWindow p.n c, x b m r ^ 2)
          ^ (-p.beta) := by
    intro b c r
    simp only [pow_two, ← cuConvSum_eq]
    rfl
  refine ⟨?_, hgpu, ?_⟩
  · intro b c r
    simp only [pow_two, ← windowedSum_eq]
    rfl
  · intro hodd b c r
    rw [hgpu b c r, devWindow_eq_lrnWindow hodd]

/-- Witness for the amended C1 on concrete parameters and input. -/
theorem claim_C1_witness :
    (forwardCPU pW xW).2 0 0 0
      = xW 0 0 0 * (pW.k + pW.alpha * ∑ m ∈ lrnWindow (pW.n / 2) (0 : Fin 3), xW 0 m 0 ^ 2)
          ^ (-pW.beta) :=
  (claim_C1_amended pW (by norm_num [pW]) xW).1 0 0 0

/-- Claim C3: after a matching forward, backward returns
`grad_x = grad_y * (k + alpha*S)^(-beta) - 2*alpha*beta * x * T` where `S`
is the windowed sum of squares computed in forward and `T` is the windowed
sum, over the same window, of the summand `y * grad_y / (k + alpha*S)`;
each path uses its own engine's window (symmetric clamped on the CPU path,
the device window on the GPU path). -/
theorem claim_C3 (p : LRNParams) (x gy : Tensor B N R) :
    (∀ (b : Fin B) (c : Fin N) (r : Fin R),
        backwardCPU p (forwardCPU p x).1 x gy b c r
          = gy b c r * (p.k + p.alpha * ∑ m ∈ lrnWindow (p.n / 2) c, x b m r ^ 2)
              ^ (-p.beta)
            - 2 * p.alpha * p.beta * x b c r
              * ∑ m ∈ lrnWindow (p.n / 2) c,
                  (forwardCPU p x).2 b m r * gy b m r
                    / (p.k + p.alpha * ∑ m2 ∈ lrnWindow (p.n / 2) m, x b m2 r ^ 2))
      ∧ (∀ (b : Fin B) (c : Fin N) (r : Fin R),
          backwardGPU p (forwardGPU p x).1 x gy b c r
            = (p.k + p.alpha * ∑ m ∈ devWindow p.n c, x b m r ^ 2) ^ (-p.beta)
                * gy b c r
              - 2 * p.alpha * p.beta * (x b c r
                * ∑ m ∈ devWindow p.n c,
                    (forwardGPU p x).2 b m r * gy b m r
                      / (p.k + p.alpha * ∑ m2 ∈ devWindow p.n m, x b m2 r ^ 2))) := by
  constructor
  · intro b c r
    simp only [pow_two, ← windowedSum_eq]
    rfl
  · intro b c r
    simp only [pow_two, ← cuConvSum_eq]
    rfl

/-- Claim C5: with `k > 0` and `alpha ≥ 0`, the CPU backward (after a matching
forward) returns exactly the transposed-Jacobian product of the forward map:
at every coordinate `(b', j, r')`, `grad_x` equals the sum over all output
coordinates of `grad_y` times the partial derivative of that output with
respect to `x b' j r'`. -/
theorem claim_C5 (p : LRNParams) (hk : 0 < p.k) (ha : 0 ≤ p.alpha)
    (x gy : Tensor B N R) (b' : Fin B) (j : Fin N) (r' : Fin R) :
    backwardCPU p (forwardCPU p x).1 x gy b' j r'
      = ∑ b : Fin B, ∑ i : Fin N, ∑ r : Fin R,
          gy b i r
            * deriv (fun t => (forwardCPU p (updateAt x b' j r' t)).2 b i r)
                (x b' j r') := by
  have hzero : ∀ (b : Fin B) (i : Fin N) (r : Fin R), b ≠ b' ∨ r ≠ r' →
      (fun t => (forwardCPU p (updateAt x b' j r' t)).2 b i r)
        = fun _ => (forwardCPU p x).2 b i r := by
    intro b i r hbr
    funext t
    rw [forwardCPU_col, forwardCPU_col]
    have hcol : (fun m => updateAt x b' j r' t b m r) = fun m => x b m r := by
      funext m
      simp only [updateAt]
      exact if_neg (by tauto)
    rw [hcol]
  have hcoleq : ∀ i : Fin N,
      (fun t => (forwardCPU p (updateAt x b' j r' t)).2 b' i r')
        = fun t => forwardCol p (Function.update (fun m => x b' m r') j t) i := by
    intro i
    funext t
    rw [forwardCPU_col]
    have hcol : (fun m => updateAt x b' j r' t b' m r')
        = Function.update (fun m2 => x b' m2 r') j t := by
      funext m
      simp only [updateAt, Function.update_apply]
      by_cases hmj : m = j
      · rw [if_pos ⟨trivial, hmj, trivial⟩, if_pos hmj]
      · rw [if_neg (by tauto), if_neg hmj]
    rw [hcol]
  have hcollapse : (∑ b : Fin B, ∑ i : Fin N, ∑ r : Fin R,
      gy b i r
        * deriv (fun t => (forwardCPU p (updateAt x b' j r' t)).2 b i r)
            (x b' j r'))
      = ∑ i : Fin N,
          gy b' i r'
            * deriv (fun t => (forwardCPU p (updateAt x b' j r' t)).2 b' i r')
                (x b' j r') := by
    rw [Finset.sum_eq_single_of_mem b' (Finset.mem_univ b')]
    · rw [Finset.sum_comm]
      rw [Finset.sum_eq_single_of_mem r' (Finset.mem_univ r')]
      · intro r _ hne
        refine Finset.sum_eq_zero fun i _ => ?_
        rw [hzero b' i r (Or.inr hne), deriv_const]
        exact mul_zero _
    · intro b _ hne
      refine Finset.sum_eq_zero fun i _ => Finset.sum_eq_zero fun r _ => ?_
      rw [hzero b i r (Or.inl hne), deriv_const]
      exact mul_zero _
  rw [backwardCPU_col p x gy b' j r', hcollapse,
    grad_col p hk ha (fun m => x b' m r') (fun m => gy b' m r') j]
  exact Finset.sum_congr rfl fun i _ => by rw [hcoleq i]

/-- Witness for C5 on concrete parameters and input. -/
theorem claim_C5_witness :
    backwardCPU pW (forwardCPU pW xW).1 xW gyW 0 0 0
      = ∑ b : Fin 1, ∑ i : Fin 3, ∑ r : Fin 1,
          gyW b i r
            * deriv (fun t => (forwardCPU pW (updateAt xW 0 0 0 t)).2 b i r)
                (xW 0 0 0) :=
  claim_C5 pW (by norm_num [pW]) (by norm_num [pW]) xW gyW 0 0 0

end Claims

end LRN
